import Mathlib

/-!
Verification of the editable-tree core and the keystroke log of the sapling
structural editor.

The repository ships the `EditableTree` trait (`src/editable_tree/mod.rs`) and
the keystroke log (`src/editor/keystroke_log.rs`).  The concrete
`editable_tree::dag` / `editable_tree::cursor_path` implementation modules are
declared by the trait file but are not part of the sources, so the persistent
tree-and-history engine is modelled from the specification: nodes live in an
append-only arena (`List` indices play the role of stable references),
versions pair a root reference with a cursor path, and the history graph is an
append-only list of entries with a current pointer.
-/

namespace Sapling

universe u

variable {K : Type u} {α : Type u}

/-- Modelled from the spec: an AST node holds a kind tag and an ordered
sequence of child references into the node arena.  The concrete node type is
external to the core, so the kind tag is a type parameter. -/
structure Node (K : Type u) where
  kind : K
  children : List Nat
deriving DecidableEq

/-- Modelled from the spec: the append-only node storage.  References are list
indices; nodes are never mutated or freed, the arena only ever grows at the
end, so a reference stays valid and keeps denoting the same node value. -/
abbrev Arena (K : Type u) := List (Node K)

/-- Modelled from the spec: a `Version` is an immutable pair of a root node
reference and a cursor path (sequence of child indices read from the root). -/
structure Version where
  root : Nat
  cursor : List Nat
deriving DecidableEq

/-- Modelled from the spec: one entry of the branching history graph: a
version, an optional parent entry, the ordered child entries, and the
last-followed-redo child. -/
structure HistoryEntry where
  version : Version
  parent : Option Nat
  children : List Nat
  lastRedo : Option Nat
deriving DecidableEq

/-- Modelled from the spec: the state of the editable tree (the missing
`editable_tree::dag` implementation): the node arena, the growable store of
history entries and the index of the current entry. -/
structure EditState (K : Type u) where
  arena : Arena K
  entries : List HistoryEntry
  current : Nat
deriving DecidableEq

/-- The possible ways you can move the cursor (source enum `Direction`). -/
inductive Direction
  | Up
  | Down
  | Prev
  | Next
deriving DecidableEq

/-- The two sides of a cursor (source enum `Side`). -/
inductive Side
  | Prev
  | Next
deriving DecidableEq

/-- Modelled from the spec: the structured insertion-error kinds of the error
taxonomy: a child kind forbidden at the target position, and a sibling
insertion attempted at the root.  `invalidPath` marks branches where the
cursor path fails to resolve; they are unreachable from well-formed states. -/
inductive InsertError
  | invalidKind
  | rootSibling
  | invalidPath
deriving DecidableEq

/-- Modelled from the spec: resolve a path against an arena starting from node
reference `r`, following one child index per step; returns the reference found
at the full path. -/
def resolveNode (a : Arena K) : Nat → List Nat → Option Nat
  | r, [] => some r
  | r, i :: p =>
    (a[r]?).bind fun n => (n.children[i]?).bind fun c => resolveNode a c p

/-- Update the element at one index of a list, leaving the list unchanged when
the index is out of range. -/
def updateAt : List α → Nat → (α → α) → List α
  | [], _, _ => []
  | x :: t, 0, f => f x :: t
  | x :: t, n + 1, f => x :: updateAt t n f

/-- The version held by the current history entry. -/
def currentVersion (s : EditState K) : Option Version :=
  (s.entries[s.current]?).map (·.version)

/-- The root node reference of the current version (`root()` of the trait). -/
def rootRefOf (s : EditState K) : Option Nat :=
  (currentVersion s).map (·.root)

/-- The cursor path of the current version. -/
def cursorPathOf (s : EditState K) : Option (List Nat) :=
  (currentVersion s).map (·.cursor)

/-- Resolve an arbitrary path against the current version's root. -/
def resolveInState (s : EditState K) (q : List Nat) : Option Nat :=
  (currentVersion s).bind fun v => resolveNode s.arena v.root q

/-- The node reference selected by the cursor of the current version. -/
def cursorRef (s : EditState K) : Option Nat :=
  (currentVersion s).bind fun v => resolveNode s.arena v.root v.cursor

/-- The node value selected by the cursor (`cursor()` of the trait, read back
through the arena). -/
def cursorNodeVal (s : EditState K) : Option (Node K) :=
  (cursorRef s).bind fun r => s.arena[r]?

/-- Well-formedness of an editable-tree state: the current entry exists and
its cursor path resolves against its root.  Every state reachable through the
public operation surface satisfies this. -/
def WFC (s : EditState K) : Prop :=
  (cursorRef s).isSome = true

instance decWFC (s : EditState K) : Decidable (WFC s) :=
  inferInstanceAs (Decidable ((cursorRef s).isSome = true))

/-- Modelled from the spec: overwrite only the cursor path of the current
entry's version, in place; used by navigation. -/
def setCursor (s : EditState K) (p : List Nat) : EditState K :=
  { s with
    entries := updateAt s.entries s.current
      fun e => { e with version := { e.version with cursor := p } } }

/-- Modelled from the spec: `move_cursor`.  `Down` appends index 0 when the
cursor node has children; `Up` drops the last path element; `Prev`/`Next`
replace the last element by its neighbour when that neighbour is a valid child
index of the parent, with no wraparound.  Failures return a descriptive
message and leave the state unchanged; the branches that fail because a path
does not resolve are unreachable from well-formed states. -/
def moveCursor (s : EditState K) (d : Direction) : EditState K × Option String :=
  match currentVersion s with
  | none => (s, some "invalid state")
  | some v =>
    match d with
    | .Up =>
      match v.cursor.getLast? with
      | none => (s, some "already at root")
      | some _ => (setCursor s v.cursor.dropLast, none)
    | .Down =>
      match (resolveNode s.arena v.root v.cursor).bind fun r => s.arena[r]? with
      | none => (s, some "no children")
      | some n =>
        if n.children.isEmpty then (s, some "no children")
        else (setCursor s (v.cursor ++ [0]), none)
    | .Prev =>
      match v.cursor.getLast? with
      | none => (s, some "root has no siblings")
      | some idx =>
        match (resolveNode s.arena v.root v.cursor.dropLast).bind fun r => s.arena[r]? with
        | none => (s, some "no such sibling")
        | some parent =>
          if idx = 0 then (s, some "no such sibling")
          else if idx - 1 < parent.children.length then
            (setCursor s (v.cursor.dropLast ++ [idx - 1]), none)
          else (s, some "no such sibling")
    | .Next =>
      match v.cursor.getLast? with
      | none => (s, some "root has no siblings")
      | some idx =>
        match (resolveNode s.arena v.root v.cursor.dropLast).bind fun r => s.arena[r]? with
        | none => (s, some "no such sibling")
        | some parent =>
          if idx + 1 < parent.children.length then
            (setCursor s (v.cursor.dropLast ++ [idx + 1]), none)
          else (s, some "no such sibling")

/-- Modelled from the spec: `commit(new_version)` of the history graph:
append a fresh entry with parent `current` and no children, push its index
into the old current entry's child list, point that entry's
last-followed-redo at it, and advance `current`. -/
def commitState (s : EditState K) (a : Arena K) (v : Version) : EditState K :=
  { arena := a
    entries := (updateAt s.entries s.current fun e =>
        { e with
          children := e.children ++ [s.entries.length]
          lastRedo := some s.entries.length }) ++
      [{ version := v, parent := some s.current, children := [], lastRedo := none }]
    current := s.entries.length }

/-- Modelled from the spec: the path-copying engine shared by the three edit
operations.  `replaceAt a r p nr` rebuilds the spine from the node at path `p`
under root `r` up to the root: the node at `p` becomes `nr`, and each ancestor
is rebuilt with its one on-path child replaced and all other children reused
by reference; the rebuilt ancestors are appended to the arena. -/
def replaceAt (a : Arena K) : Nat → List Nat → Nat → Option (Arena K × Nat)
  | _, [], nr => some (a, nr)
  | r, i :: p, nr =>
    (a[r]?).bind fun n => (n.children[i]?).bind fun c =>
      (replaceAt a c p nr).map fun ac =>
        (ac.1 ++ [Node.mk n.kind (n.children.set i ac.2)], ac.1.length)

/-- Modelled from the spec: `replace_cursor(new_node)` allocates `new_node`,
path-copies it into the cursor position, and commits the new root as a new
version carrying the same cursor path.  The operation cannot fail; the
unreachable failure branches return the state unchanged. -/
def replaceCursor (s : EditState K) (n : Node K) : EditState K :=
  match currentVersion s with
  | none => s
  | some v =>
    match replaceAt (s.arena ++ [n]) v.root v.cursor s.arena.length with
    | none => s
    | some (a₂, r₂) => commitState s a₂ { root := r₂, cursor := v.cursor }

/-- Modelled from the spec: `insert_child(new_node)` validates `new_node`'s
kind as a new first child of the cursor node against the grammar capability
`valid`; on success the cursor node is rebuilt with `new_node` prepended to
its children, the spine is path-copied, the new version is committed, and the
cursor path is extended with index 0.  A rejected insertion returns an error
and the untouched state. -/
def insertChild (valid : K → K → Nat → Bool) (s : EditState K) (n : Node K) :
    EditState K × Option InsertError :=
  match currentVersion s with
  | none => (s, some .invalidPath)
  | some v =>
    match (resolveNode s.arena v.root v.cursor).bind fun r => s.arena[r]? with
    | none => (s, some .invalidPath)
    | some cnode =>
      if valid cnode.kind n.kind 0 then
        match replaceAt (s.arena ++ [n] ++ [Node.mk cnode.kind (s.arena.length :: cnode.children)])
            v.root v.cursor (s.arena ++ [n]).length with
        | none => (s, some .invalidPath)
        | some (a₃, r₃) => (commitState s a₃ { root := r₃, cursor := v.cursor ++ [0] }, none)
      else (s, some .invalidKind)

/-- The insertion position used by `insert_next_to_cursor`: the cursor's own
index for `Side::Prev`, one past it for `Side::Next`. -/
def sidePos (side : Side) (idx : Nat) : Nat :=
  match side with
  | .Prev => idx
  | .Next => idx + 1

/-- Modelled from the spec: `insert_next_to_cursor(new_node, side)` fails with
an insertion error on an empty cursor path; otherwise it validates
`new_node`'s kind at position `idx` (`Prev`) or `idx + 1` (`Next`) under the
parent, splices `new_node` into the parent's children at that position,
path-copies from the parent to the root, commits, and sets the path's last
element to the splice position so the cursor selects the new node. -/
def insertNextToCursor (valid : K → K → Nat → Bool) (s : EditState K) (n : Node K)
    (side : Side) : EditState K × Option InsertError :=
  match currentVersion s with
  | none => (s, some .invalidPath)
  | some v =>
    match v.cursor.getLast? with
    | none => (s, some .rootSibling)
    | some idx =>
      match (resolveNode s.arena v.root v.cursor.dropLast).bind fun r => s.arena[r]? with
      | none => (s, some .invalidPath)
      | some pnode =>
        if valid pnode.kind n.kind (sidePos side idx) then
          match replaceAt (s.arena ++ [n] ++ [Node.mk pnode.kind
              (pnode.children.take (sidePos side idx) ++
                s.arena.length :: pnode.children.drop (sidePos side idx))])
              v.root v.cursor.dropLast (s.arena ++ [n]).length with
          | none => (s, some .invalidPath)
          | some (a₃, r₃) =>
            (commitState s a₃
              { root := r₃, cursor := v.cursor.dropLast ++ [sidePos side idx] }, none)
        else (s, some .invalidKind)

/-- Modelled from the spec: `new(arena, root)` builds a history graph with one
entry wrapping the given root and an empty cursor path. -/
def newEditState (a : Arena K) (r : Nat) : EditState K :=
  { arena := a
    entries := [{ version := { root := r, cursor := [] }, parent := none,
                  children := [], lastRedo := none }]
    current := 0 }

/-- Modelled from the spec: `undo()` moves current to its parent entry,
returning `false` without changing anything when there is no parent. -/
def undoStep (s : EditState K) : EditState K × Bool :=
  match s.entries[s.current]? with
  | none => (s, false)
  | some e =>
    match e.parent with
    | none => (s, false)
    | some p => ({ s with current := p }, true)

/-- Modelled from the spec: `redo()` moves current to its last-followed-redo
child, returning `false` without changing anything when there is none. -/
def redoStep (s : EditState K) : EditState K × Bool :=
  match s.entries[s.current]? with
  | none => (s, false)
  | some e =>
    match e.lastRedo with
    | none => (s, false)
    | some c => ({ s with current := c }, true)

/-- Apply `undo()` `n` times (discarding the returned flags). -/
def undoN (s : EditState K) : Nat → EditState K
  | 0 => s
  | n + 1 => (undoStep (undoN s n)).1

/-- Apply `redo()` `n` times (discarding the returned flags). -/
def redoN (s : EditState K) : Nat → EditState K
  | 0 => s
  | n + 1 => redoN (redoStep s).1 n

/-- One edit request of the trait's edit surface. -/
inductive EditOp (K : Type u)
  | replace (n : Node K)
  | child (n : Node K)
  | nextTo (n : Node K) (side : Side)

/-- Apply one edit operation, returning the new state and the error, if any
(`replace_cursor` is infallible). -/
def applyEdit (valid : K → K → Nat → Bool) (s : EditState K) :
    EditOp K → EditState K × Option InsertError
  | .replace n => (replaceCursor s n, none)
  | .child n => insertChild valid s n
  | .nextTo n side => insertNextToCursor valid s n side

/-- Apply a sequence of edits, returning `none` as soon as one reports an
insertion error. -/
def applyEditsOk (valid : K → K → Nat → Bool) :
    EditState K → List (EditOp K) → Option (EditState K)
  | s, [] => some s
  | s, op :: rest =>
    match applyEdit valid s op with
    | (t, none) => applyEditsOk valid t rest
    | (_, some _) => none

/-- Apply a sequence of cursor moves, keeping the state of each step whether
the move succeeded or failed. -/
def moveSeq (s : EditState K) : List Direction → EditState K
  | [] => s
  | d :: rest => moveSeq (moveCursor s d).1 rest

/-- Two paths are incomparable when neither is a prefix of the other: a node
whose access path is incomparable with the edited path is reached without
traversing the rebuilt spine. -/
def IncompPath (p q : List Nat) : Prop :=
  ¬p <+: q ∧ ¬q <+: p

instance decIncompPath (p q : List Nat) : Decidable (IncompPath p q) :=
  inferInstanceAs (Decidable (¬p <+: q ∧ ¬q <+: p))

/-- The text renderer of the grammar capability is external; `write_text`
builds the representation of the current tree into a caller-supplied buffer,
so it is kept fully abstract as a function from state, buffer and format to
the final buffer contents. -/
def writeText (wt : EditState K → String → F → String) (s : EditState K)
    (buf : String) (fmt : F) : String :=
  wt s buf fmt

/-- The trait's provided method `to_text`: render into a fresh empty buffer
and return it (from the source default implementation). -/
def toText (wt : EditState K → String → F → String) (s : EditState K) (fmt : F) : String :=
  writeText wt s "" fmt

/-- A terminal color, restricted to the colors the keystroke log uses (from
the source `Category::term_color`). -/
inductive Color
  | lightBlue
  | lightYellow
  | lightGreen
  | cyan
  | red
  | magenta
  | green
  | lightRed
deriving DecidableEq

/-- A category grouping similar actions (source enum `Category`). -/
inductive Category
  | move
  | history
  | insert
  | replace
  | delete
  | quit
  | inputOutput
  | undefined
deriving DecidableEq

/-- The color all actions of a given category are displayed in (source
`Category::term_color`). -/
def Category.termColor : Category → Color
  | .move => .lightBlue
  | .history => .lightYellow
  | .insert => .lightGreen
  | .replace => .cyan
  | .delete => .red
  | .quit => .magenta
  | .inputOutput => .green
  | .undefined => .lightRed

/-- One entry in the keystroke log: a repetition count, the keystroke
sequence, a description and a display color (source struct `Entry`).  The
terminal key type is a parameter. -/
structure LogEntry (Key : Type u) where
  count : Nat
  keystrokes : List Key
  description : String
  color : Color
deriving DecidableEq

/-- The keystroke log: the stored entries, the maximum number of entries to
display, and the keys accumulated for the next entry (source struct
`KeyStrokeLog`). -/
structure KeyStrokeLog (Key : Type u) where
  keystrokes : List (LogEntry Key)
  maxEntries : Nat
  unloggedKeystrokes : List Key
deriving DecidableEq

/-- Create a new (empty) keystroke log (source `KeyStrokeLog::new`). -/
def KeyStrokeLog.new (Key : Type u) (maxEntries : Nat) : KeyStrokeLog Key :=
  { keystrokes := [], maxEntries := maxEntries, unloggedKeystrokes := [] }

/-- The loop body of `enforce_entry_limit`: repeatedly remove the front entry
while the list is longer than the limit. -/
def enforceList (m : Nat) : List α → List α
  | [] => []
  | x :: t => if t.length + 1 > m then enforceList m t else x :: t

/-- Repeatedly remove entries from the front until the entry limit is
satisfied (source `KeyStrokeLog::enforce_entry_limit`). -/
def KeyStrokeLog.enforceEntryLimit (l : KeyStrokeLog Key) : KeyStrokeLog Key :=
  { l with keystrokes := enforceList l.maxEntries l.keystrokes }

/-- Set and enforce the max entry limit (source
`KeyStrokeLog::set_max_entries`). -/
def KeyStrokeLog.setMaxEntries (l : KeyStrokeLog Key) (m : Nat) : KeyStrokeLog Key :=
  KeyStrokeLog.enforceEntryLimit { l with maxEntries := m }

/-- Log a new key to be added to the next log entry (source
`KeyStrokeLog::push_key`). -/
def KeyStrokeLog.pushKey (l : KeyStrokeLog Key) (k : Key) : KeyStrokeLog Key :=
  { l with unloggedKeystrokes := l.unloggedKeystrokes ++ [k] }

/-- Create a new entry in the log from the keys pushed so far (source
`KeyStrokeLog::log_entry`): when the pending keys equal the keystrokes of the
last stored entry, that entry's count is incremented; otherwise a fresh entry
is pushed and the entry limit enforced; the pending keys are cleared. -/
def KeyStrokeLog.logEntry [DecidableEq Key] (l : KeyStrokeLog Key)
    (description : String) (category : Category) : KeyStrokeLog Key :=
  if (l.keystrokes.getLast?).map LogEntry.keystrokes = some l.unloggedKeystrokes then
    { l with
      keystrokes := l.keystrokes.dropLast ++
        ((l.keystrokes.getLast?).map fun e => { e with count := e.count + 1 }).toList
      unloggedKeystrokes := [] }
  else
    { l with
      keystrokes := enforceList l.maxEntries (l.keystrokes ++
        [{ count := 1, keystrokes := l.unloggedKeystrokes, description := description,
           color := category.termColor }])
      unloggedKeystrokes := [] }

/-- One call of the keystroke-log mutation surface. -/
inductive LogOp (Key : Type u)
  | pushKey (k : Key)
  | logEntry (description : String) (category : Category)
  | setMaxEntries (m : Nat)

/-- Apply one keystroke-log call. -/
def applyLogOp [DecidableEq Key] (l : KeyStrokeLog Key) : LogOp Key → KeyStrokeLog Key
  | .pushKey k => l.pushKey k
  | .logEntry d c => l.logEntry d c
  | .setMaxEntries m => l.setMaxEntries m

/-- Apply a sequence of keystroke-log calls. -/
def applyLogOps [DecidableEq Key] : KeyStrokeLog Key → List (LogOp Key) → KeyStrokeLog Key
  | l, [] => l
  | l, op :: rest => applyLogOps (applyLogOp l op) rest

theorem updateAt_length (l : List α) (n : Nat) (f : α → α) :
    (updateAt l n f).length = l.length := by
  induction l generalizing n with
  | nil => rfl
  | cons x t ih =>
    cases n with
    | zero => rfl
    | succ m => simpa [updateAt] using ih m

theorem getElem?_updateAt_ne (l : List α) (n : Nat) (f : α → α) (i : Nat) (h : i ≠ n) :
    (updateAt l n f)[i]? = l[i]? := by
  induction l generalizing n i with
  | nil => rfl
  | cons x t ih =>
    cases n with
    | zero =>
      cases i with
      | zero => exact absurd rfl h
      | succ j => simp [updateAt]
    | succ m =>
      cases i with
      | zero => simp [updateAt]
      | succ j => simpa [updateAt] using ih m j (fun hc => h (by omega))

theorem getElem?_updateAt_self (l : List α) (n : Nat) (f : α → α) :
    (updateAt l n f)[n]? = (l[n]?).map f := by
  induction l generalizing n with
  | nil => rfl
  | cons x t ih =>
    cases n with
    | zero => simp [updateAt]
    | succ m => simpa [updateAt] using ih m

theorem setCursor_arena (s : EditState K) (p : List Nat) :
    (setCursor s p).arena = s.arena := rfl

theorem setCursor_current (s : EditState K) (p : List Nat) :
    (setCursor s p).current = s.current := rfl

theorem setCursor_entries_length (s : EditState K) (p : List Nat) :
    (setCursor s p).entries.length = s.entries.length := by
  simp [setCursor, updateAt_length]

theorem setCursor_entries_ne (s : EditState K) (p : List Nat) (i : Nat)
    (h : i ≠ s.current) : (setCursor s p).entries[i]? = s.entries[i]? :=
  getElem?_updateAt_ne _ _ _ _ h

theorem setCursor_entries_current (s : EditState K) (p : List Nat) :
    (setCursor s p).entries[s.current]? =
      (s.entries[s.current]?).map
        fun e => { e with version := { e.version with cursor := p } } :=
  getElem?_updateAt_self _ _ _

/-- The frame a single navigation call respects: arena, current pointer,
entry count and every entry other than the current one are untouched, and the
current entry keeps its root, parent, children and last-followed-redo
fields. -/
def NavFrame (s t : EditState K) : Prop :=
  t.arena = s.arena ∧ t.current = s.current ∧ t.entries.length = s.entries.length ∧
    (∀ i, i ≠ s.current → t.entries[i]? = s.entries[i]?) ∧
    (t.entries[s.current]?).map
        (fun e => (e.version.root, e.parent, e.children, e.lastRedo)) =
      (s.entries[s.current]?).map
        fun e => (e.version.root, e.parent, e.children, e.lastRedo)

theorem navFrame_refl (s : EditState K) : NavFrame s s :=
  ⟨rfl, rfl, rfl, fun _ _ => rfl, rfl⟩

theorem navFrame_trans {s t u : EditState K} (h₁ : NavFrame s t) (h₂ : NavFrame t u) :
    NavFrame s u := by
  obtain ⟨a₁, c₁, l₁, o₁, m₁⟩ := h₁
  obtain ⟨a₂, c₂, l₂, o₂, m₂⟩ := h₂
  rw [c₁] at o₂ m₂
  exact ⟨a₂.trans a₁, c₂.trans c₁, l₂.trans l₁,
    fun i hi => (o₂ i hi).trans (o₁ i hi), m₂.trans m₁⟩

theorem navFrame_setCursor (s : EditState K) (p : List Nat) :
    NavFrame s (setCursor s p) := by
  refine ⟨rfl, rfl, setCursor_entries_length s p, setCursor_entries_ne s p, ?_⟩
  rw [setCursor_entries_current]
  cases s.entries[s.current]? <;> rfl

theorem navFrame_moveCursor (s : EditState K) (d : Direction) :
    NavFrame s (moveCursor s d).1 := by
  have hset : ∀ p, NavFrame s (setCursor s p) := navFrame_setCursor s
  have hrefl := navFrame_refl s
  cases d <;> simp only [moveCursor] <;>
    repeat' first
      | exact hrefl
      | apply hset
      | split

theorem navFrame_moveSeq (s : EditState K) (ds : List Direction) :
    NavFrame s (moveSeq s ds) := by
  induction ds generalizing s with
  | nil => exact navFrame_refl s
  | cons d rest ih =>
    exact navFrame_trans (navFrame_moveCursor s d) (ih (moveCursor s d).1)

/-- C7: any sequence of `move_cursor` calls, successful or failed, leaves the
number of history entries unchanged; it never creates, removes or modifies
entries: entries other than the current one are untouched, and the current
entry keeps its root, parent, children and last-followed-redo fields, so only
its cursor-path field can change. -/
theorem move_cursor_history_neutral (s : EditState K) (ds : List Direction) :
    (moveSeq s ds).entries.length = s.entries.length ∧
      (moveSeq s ds).current = s.current ∧
      (∀ i, i ≠ s.current → (moveSeq s ds).entries[i]? = s.entries[i]?) ∧
      ((moveSeq s ds).entries[s.current]?).map
          (fun e => (e.version.root, e.parent, e.children, e.lastRedo)) =
        (s.entries[s.current]?).map
          fun e => (e.version.root, e.parent, e.children, e.lastRedo) := by
  obtain ⟨_, hc, hl, ho, hm⟩ := navFrame_moveSeq s ds
  exact ⟨hl, hc, ho, hm⟩

/-- C7 witness: a concrete two-move sequence (one successful `Up` is
impossible from the root, one failed `Down` on a leaf) keeps the single
history entry intact. -/
theorem move_cursor_history_neutral_witness :
    ((moveSeq (newEditState ([⟨0, []⟩] : Arena Nat) 0) [.Down, .Up]).entries.length =
        (newEditState ([⟨0, []⟩] : Arena Nat) 0).entries.length ∧
      (moveSeq (newEditState ([⟨0, []⟩] : Arena Nat) 0) [.Down, .Up]).current =
        (newEditState ([⟨0, []⟩] : Arena Nat) 0).current ∧
      (∀ i, i ≠ (newEditState ([⟨0, []⟩] : Arena Nat) 0).current →
        (moveSeq (newEditState ([⟨0, []⟩] : Arena Nat) 0) [.Down, .Up]).entries[i]? =
          (newEditState ([⟨0, []⟩] : Arena Nat) 0).entries[i]?) ∧
      ((moveSeq (newEditState ([⟨0, []⟩] : Arena Nat) 0) [.Down, .Up]).entries[
          (newEditState ([⟨0, []⟩] : Arena Nat) 0).current]?).map
          (fun e => (e.version.root, e.parent, e.children, e.lastRedo)) =
        ((newEditState ([⟨0, []⟩] : Arena Nat) 0).entries[
          (newEditState ([⟨0, []⟩] : Arena Nat) 0).current]?).map
          fun e => (e.version.root, e.parent, e.children, e.lastRedo)) :=
  move_cursor_history_neutral (newEditState ([⟨0, []⟩] : Arena Nat) 0) [.Down, .Up]

/-- C8: `to_text` returns exactly the string `write_text` produces when
rendering into an initially empty buffer with the same format, whatever the
external renderer does. -/
theorem to_text_eq_write_text_on_empty (wt : EditState K → String → F → String)
    (s : EditState K) (fmt : F) : toText wt s fmt = writeText wt s "" fmt := rfl

theorem enforceList_length_le (m : Nat) (l : List α) : (enforceList m l).length ≤ m := by
  induction l with
  | nil => simp [enforceList]
  | cons x t ih =>
    by_cases h : t.length + 1 > m
    · simpa [enforceList, h] using ih
    · simp only [enforceList, if_neg h, List.length_cons]
      omega

theorem enforceList_eq_drop (m : Nat) (l : List α) :
    enforceList m l = l.drop (l.length - m) := by
  induction l with
  | nil => simp [enforceList]
  | cons x t ih =>
    by_cases h : t.length + 1 > m
    · have hm : t.length + 1 - m = (t.length - m) + 1 := by omega
      simp only [enforceList, if_pos h, List.length_cons, hm, List.drop_succ_cons]
      exact ih
    · have hm : t.length + 1 - m = 0 := by omega
      simp [enforceList, if_neg h, hm]

theorem keystroke_log_inv_step {Key : Type u} [DecidableEq Key] (l : KeyStrokeLog Key)
    (h : l.keystrokes.length ≤ l.maxEntries) (op : LogOp Key) :
    (applyLogOp l op).keystrokes.length ≤ (applyLogOp l op).maxEntries := by
  cases op with
  | pushKey k => exact h
  | setMaxEntries m =>
    exact enforceList_length_le m l.keystrokes
  | logEntry d c =>
    simp only [applyLogOp, KeyStrokeLog.logEntry]
    split
    · rename_i hcond
      cases hlast : l.keystrokes.getLast? with
      | none => simp [hlast] at hcond
      | some e =>
        have hne : l.keystrokes ≠ [] := by
          intro hnil
          rw [hnil] at hlast
          simp at hlast
        simp only [hlast, Option.map_some', Option.toList_some]
        have : l.keystrokes.dropLast.length = l.keystrokes.length - 1 :=
          List.length_dropLast _
        simp only [List.length_append, this, List.length_cons, List.length_nil]
        have hpos : 0 < l.keystrokes.length := List.length_pos.mpr hne
        omega
    · exact enforceList_length_le _ _

/-- C9: starting from `new(max_entries)`, after any sequence of `push_key`,
`log_entry` and `set_max_entries` calls the number of stored entries never
exceeds the log's current `max_entries` value. -/
theorem keystroke_log_capacity {Key : Type u} [DecidableEq Key] (m : Nat)
    (ops : List (LogOp Key)) :
    (applyLogOps (KeyStrokeLog.new Key m) ops).keystrokes.length ≤
      (applyLogOps (KeyStrokeLog.new Key m) ops).maxEntries := by
  have main : ∀ (ops : List (LogOp Key)) (l : KeyStrokeLog Key),
      l.keystrokes.length ≤ l.maxEntries →
      (applyLogOps l ops).keystrokes.length ≤ (applyLogOps l ops).maxEntries := by
    intro ops
    induction ops with
    | nil => exact fun l h => h
    | cons op rest ih =>
      intro l h
      exact ih (applyLogOp l op) (keystroke_log_inv_step l h op)
  exact main ops (KeyStrokeLog.new Key m) (by simp [KeyStrokeLog.new])

/-- C10: `log_entry` clears the pending key buffer; when the pending keys
equal the keystroke sequence of the most recent stored entry it increments
that entry's count and keeps its old description and color, discarding the
supplied ones; otherwise it appends a fresh entry with count 1, the pending
keys, the supplied description and the category's color, evicting oldest
entries from the front exactly when the limit is exceeded. -/
theorem keystroke_log_entry_spec {Key : Type u} [DecidableEq Key] (l : KeyStrokeLog Key)
    (d : String) (c : Category) :
    (l.logEntry d c).unloggedKeystrokes = [] ∧
      (∀ e, l.keystrokes.getLast? = some e → e.keystrokes = l.unloggedKeystrokes →
        (l.logEntry d c).keystrokes =
          l.keystrokes.dropLast ++ [⟨e.count + 1, e.keystrokes, e.description, e.color⟩]) ∧
      ((l.keystrokes.getLast?).map LogEntry.keystrokes ≠ some l.unloggedKeystrokes →
        (l.logEntry d c).keystrokes =
          (l.keystrokes ++ [LogEntry.mk 1 l.unloggedKeystrokes d c.termColor]).drop
            (l.keystrokes.length + 1 - l.maxEntries)) := by
  refine ⟨?_, ?_, ?_⟩
  · simp only [KeyStrokeLog.logEntry]
    split <;> rfl
  · intro e hlast hkeys
    obtain ⟨cnt, ks, ds, co⟩ := e
    simp only at hkeys
    simp [KeyStrokeLog.logEntry, hlast, hkeys]
  · intro hcond
    simp only [KeyStrokeLog.logEntry, if_neg hcond]
    rw [enforceList_eq_drop]
    simp

/-- C10 witness: on a concrete log over `Nat` keys, a repeated keystroke
sequence increments the last entry keeping its description and color, and a
different keystroke sequence appends a fresh entry. -/
theorem keystroke_log_entry_spec_witness :
    ((KeyStrokeLog.mk [⟨1, [5], "put", Color.red⟩] 10 [5]).logEntry "other"
        Category.move).keystrokes =
        (KeyStrokeLog.mk [⟨1, [5], "put", Color.red⟩] 10
          ([5] : List Nat)).keystrokes.dropLast ++
          [LogEntry.mk (1 + 1) [5] "put" Color.red] ∧
      ((KeyStrokeLog.mk [⟨1, [5], "put", Color.red⟩] 10 [7]).logEntry "new"
        Category.delete).keystrokes =
        ((KeyStrokeLog.mk [⟨1, [5], "put", Color.red⟩] 10 ([7] : List Nat)).keystrokes ++
          [LogEntry.mk 1 [7] "new" Category.delete.termColor]).drop
          ((KeyStrokeLog.mk [⟨1, [5], "put", Color.red⟩] 10
            ([7] : List Nat)).keystrokes.length + 1 - 10) ∧
      ((KeyStrokeLog.mk [⟨1, [5], "put", Color.red⟩] 10 ([5] : List Nat)).logEntry "other"
        Category.move).unloggedKeystrokes = [] :=
  ⟨(keystroke_log_entry_spec (KeyStrokeLog.mk [⟨1, [5], "put", Color.red⟩] 10 [5])
      "other" Category.move).2.1 ⟨1, [5], "put", Color.red⟩ (by decide) (by decide),
    (keystroke_log_entry_spec (KeyStrokeLog.mk [⟨1, [5], "put", Color.red⟩] 10 [7])
      "new" Category.delete).2.2 (by decide),
    (keystroke_log_entry_spec (KeyStrokeLog.mk [⟨1, [5], "put", Color.red⟩] 10 [5])
      "other" Category.move).1⟩

theorem getElem?_append_of_some {l l' : List α} {i : Nat} {x : α}
    (h : l[i]? = some x) : (l ++ l')[i]? = some x := by
  rw [List.getElem?_append_left (List.getElem?_eq_some.mp h).1]
  exact h

theorem getElem?_set_self_of_lt {l : List α} {i : Nat} {a : α} (h : i < l.length) :
    (l.set i a)[i]? = some a := by
  rw [List.getElem?_set_self']
  simp [List.getElem?_eq_getElem h]

theorem resolveNode_mono {a : Arena K} (b : Arena K) {r : Nat} {q : List Nat} {x : Nat}
    (h : resolveNode a r q = some x) : resolveNode (a ++ b) r q = some x := by
  induction q generalizing r with
  | nil => exact h
  | cons i p ih =>
    simp only [resolveNode, Option.bind_eq_some] at h ⊢
    obtain ⟨n, hn, c, hc, hr⟩ := h
    exact ⟨n, getElem?_append_of_some hn, c, hc, ih hr⟩

theorem resolveNode_append (a : Arena K) (r : Nat) (p q : List Nat) :
    resolveNode a r (p ++ q) = (resolveNode a r p).bind fun m => resolveNode a m q := by
  induction p generalizing r with
  | nil => simp [resolveNode]
  | cons i p' ih =>
    cases hn : a[r]? with
    | none => simp [resolveNode, hn]
    | some n =>
      cases hc : n.children[i]? with
      | none => simp [resolveNode, hn, hc]
      | some c => simp [resolveNode, hn, hc, ih]

theorem replaceAt_extends {a : Arena K} {r : Nat} {p : List Nat} {nr : Nat}
    {a' : Arena K} {r' : Nat} (h : replaceAt a r p nr = some (a', r')) :
    ∃ b, a' = a ++ b := by
  induction p generalizing r a' r' with
  | nil =>
    simp only [replaceAt, Option.some.injEq, Prod.mk.injEq] at h
    exact ⟨[], by simp [← h.1]⟩
  | cons i p' ih =>
    simp only [replaceAt, Option.bind_eq_some, Option.map_eq_some'] at h
    obtain ⟨n, hn, c, hc, ac, hac, heq⟩ := h
    obtain ⟨b, hb⟩ := ih hac
    cases heq
    exact ⟨b ++ [Node.mk n.kind (n.children.set i ac.2)], by rw [hb, List.append_assoc]⟩

theorem replaceAt_of_resolve {a : Arena K} {r : Nat} {p : List Nat} {x : Nat}
    (h : resolveNode a r p = some x) (nr : Nat) :
    ∃ a' r', replaceAt a r p nr = some (a', r') := by
  induction p generalizing r with
  | nil => exact ⟨a, nr, rfl⟩
  | cons i p' ih =>
    simp only [resolveNode, Option.bind_eq_some] at h
    obtain ⟨n, hn, c, hc, hr⟩ := h
    obtain ⟨a₁, c₁, h₁⟩ := ih hr
    exact ⟨a₁ ++ [Node.mk n.kind (n.children.set i c₁)], a₁.length,
      by simp [replaceAt, hn, hc, h₁]⟩

theorem replaceAt_resolve_self {a : Arena K} {r : Nat} {p : List Nat} {nr : Nat}
    {a' : Arena K} {r' : Nat} (h : replaceAt a r p nr = some (a', r')) :
    resolveNode a' r' p = some nr := by
  induction p generalizing r a' r' with
  | nil =>
    simp only [replaceAt, Option.some.injEq, Prod.mk.injEq] at h
    rw [← h.1, ← h.2]
    rfl
  | cons i p' ih =>
    simp only [replaceAt, Option.bind_eq_some, Option.map_eq_some'] at h
    obtain ⟨n, hn, c, hc, ac, hac, heq⟩ := h
    have hilt : i < n.children.length := (List.getElem?_eq_some.mp hc).1
    cases heq
    simp only [resolveNode, Option.bind_eq_some]
    exact ⟨_, List.getElem?_concat_length _ _, ac.2, getElem?_set_self_of_lt hilt,
      resolveNode_mono _ (ih hac)⟩

theorem replaceAt_frame {a : Arena K} {r : Nat} {p : List Nat} {nr : Nat}
    {a' : Arena K} {r' : Nat} (h : replaceAt a r p nr = some (a', r'))
    {q : List Nat} {x : Nat} (hq : resolveNode a r q = some x)
    (h₁ : ¬p <+: q) (h₂ : ¬q <+: p) : resolveNode a' r' q = some x := by
  induction p generalizing r a' r' q with
  | nil => exact absurd List.nil_prefix h₁
  | cons i p' ih =>
    cases q with
    | nil => exact absurd List.nil_prefix h₂
    | cons j q' =>
      simp only [replaceAt, Option.bind_eq_some, Option.map_eq_some'] at h
      obtain ⟨n, hn, c, hc, ac, hac, heq⟩ := h
      cases heq
      simp only [resolveNode, Option.bind_eq_some] at hq
      obtain ⟨n₀, hn₀, c₀, hc₀, hres₀⟩ := hq
      rw [hn] at hn₀
      injection hn₀ with hnn
      subst hnn
      by_cases hij : j = i
      · subst hij
        rw [hc] at hc₀
        injection hc₀ with hcc
        subst hcc
        have h₁' : ¬p' <+: q' := fun hp => h₁ (List.cons_prefix_cons.mpr ⟨rfl, hp⟩)
        have h₂' : ¬q' <+: p' := fun hp => h₂ (List.cons_prefix_cons.mpr ⟨rfl, hp⟩)
        simp only [resolveNode, Option.bind_eq_some]
        exact ⟨_, List.getElem?_concat_length _ _, ac.2,
          getElem?_set_self_of_lt (List.getElem?_eq_some.mp hc).1,
          resolveNode_mono _ (ih hac hres₀ h₁' h₂')⟩
      · simp only [resolveNode, Option.bind_eq_some]
        refine ⟨_, List.getElem?_concat_length _ _, c₀, ?_, ?_⟩
        · rw [List.getElem?_set_ne fun hh => hij hh.symm]
          exact hc₀
        · obtain ⟨b, hb⟩ := replaceAt_extends hac
          rw [hb, List.append_assoc]
          exact resolveNode_mono _ hres₀

theorem commit_arena (s : EditState K) (a : Arena K) (v : Version) :
    (commitState s a v).arena = a := rfl

theorem commit_current (s : EditState K) (a : Arena K) (v : Version) :
    (commitState s a v).current = s.entries.length := rfl

theorem commit_entries_length (s : EditState K) (a : Arena K) (v : Version) :
    (commitState s a v).entries.length = s.entries.length + 1 := by
  simp [commitState, updateAt_length]

theorem commit_entry_new (s : EditState K) (a : Arena K) (v : Version) :
    (commitState s a v).entries[s.entries.length]? =
      some { version := v, parent := some s.current, children := [], lastRedo := none } := by
  simp only [commitState]
  rw [List.getElem?_append_right (by rw [updateAt_length])]
  simp [updateAt_length]

theorem commit_entry_old (s : EditState K) (a : Arena K) (v : Version) (i : Nat)
    (hi : i < s.entries.length) (hne : i ≠ s.current) :
    (commitState s a v).entries[i]? = s.entries[i]? := by
  simp only [commitState]
  rw [List.getElem?_append_left (by rw [updateAt_length]; exact hi)]
  exact getElem?_updateAt_ne _ _ _ _ hne

theorem commit_entry_current (s : EditState K) (a : Arena K) (v : Version)
    (hc : s.current < s.entries.length) :
    (commitState s a v).entries[s.current]? =
      (s.entries[s.current]?).map fun e =>
        { e with
          children := e.children ++ [s.entries.length]
          lastRedo := some s.entries.length } := by
  simp only [commitState]
  rw [List.getElem?_append_left (by rw [updateAt_length]; exact hc)]
  exact getElem?_updateAt_self _ _ _

theorem currentVersion_commit (s : EditState K) (a : Arena K) (v : Version) :
    currentVersion (commitState s a v) = some v := by
  simp only [currentVersion, commit_current, commit_entry_new, Option.map_some']

theorem currentVersion_setCursor (s : EditState K) (p : List Nat) :
    currentVersion (setCursor s p) =
      (currentVersion s).map fun v => { v with cursor := p } := by
  simp only [currentVersion, setCursor_current, setCursor_entries_current, Option.map_map]
  rfl

theorem WFC_current_lt {s : EditState K} (h : WFC s) : s.current < s.entries.length := by
  simp only [WFC, cursorRef, currentVersion, Option.isSome_iff_exists] at h
  obtain ⟨x, hx⟩ := h
  rw [Option.bind_eq_some] at hx
  obtain ⟨v, hv, -⟩ := hx
  rw [Option.map_eq_some'] at hv
  obtain ⟨e, he, -⟩ := hv
  exact (List.getElem?_eq_some.mp he).1

theorem WFC_elim {s : EditState K} (h : WFC s) :
    ∃ v cref, currentVersion s = some v ∧ resolveNode s.arena v.root v.cursor = some cref := by
  simp only [WFC, cursorRef, Option.isSome_iff_exists] at h
  obtain ⟨x, hx⟩ := h
  rw [Option.bind_eq_some] at hx
  obtain ⟨v, hv, hres⟩ := hx
  exact ⟨v, x, hv, hres⟩

theorem insertChild_success {valid : K → K → Nat → Bool} {s t : EditState K} {n : Node K}
    (h : insertChild valid s n = (t, none)) :
    ∃ v cnode a₃ r₃, currentVersion s = some v ∧
      ((resolveNode s.arena v.root v.cursor).bind fun r => s.arena[r]?) = some cnode ∧
      valid cnode.kind n.kind 0 = true ∧
      replaceAt (s.arena ++ [n] ++ [Node.mk cnode.kind (s.arena.length :: cnode.children)])
        v.root v.cursor (s.arena ++ [n]).length = some (a₃, r₃) ∧
      t = commitState s a₃ { root := r₃, cursor := v.cursor ++ [0] } := by
  unfold insertChild at h
  split at h
  · exact absurd (congrArg Prod.snd h).symm (by simp)
  · rename_i v hv
    split at h
    · exact absurd (congrArg Prod.snd h).symm (by simp)
    · rename_i cnode hcnode
      split at h
      · rename_i hvalid
        split at h
        · exact absurd (congrArg Prod.snd h).symm (by simp)
        · rename_i a₃ r₃ hrep
          exact ⟨v, cnode, a₃, r₃, hv, hcnode, hvalid, hrep,
            (congrArg Prod.fst h).symm⟩
      · exact absurd (congrArg Prod.snd h).symm (by simp)

theorem insertNextToCursor_success {valid : K → K → Nat → Bool} {s t : EditState K}
    {n : Node K} {side : Side} (h : insertNextToCursor valid s n side = (t, none)) :
    ∃ v idx pnode a₃ r₃, currentVersion s = some v ∧
      v.cursor.getLast? = some idx ∧
      ((resolveNode s.arena v.root v.cursor.dropLast).bind fun r => s.arena[r]?) =
        some pnode ∧
      valid pnode.kind n.kind (sidePos side idx) = true ∧
      replaceAt (s.arena ++ [n] ++ [Node.mk pnode.kind
          (pnode.children.take (sidePos side idx) ++
            s.arena.length :: pnode.children.drop (sidePos side idx))])
        v.root v.cursor.dropLast (s.arena ++ [n]).length = some (a₃, r₃) ∧
      t = commitState s a₃
        { root := r₃, cursor := v.cursor.dropLast ++ [sidePos side idx] } := by
  unfold insertNextToCursor at h
  split at h
  · exact absurd (congrArg Prod.snd h).symm (by simp)
  · rename_i v hv
    split at h
    · exact absurd (congrArg Prod.snd h).symm (by simp)
    · rename_i idx hidx
      split at h
      · exact absurd (congrArg Prod.snd h).symm (by simp)
      · rename_i pnode hpnode
        split at h
        · rename_i hvalid
          split at h
          · exact absurd (congrArg Prod.snd h).symm (by simp)
          · rename_i a₃ r₃ hrep
            exact ⟨v, idx, pnode, a₃, r₃, hv, hidx, hpnode, hvalid, hrep,
              (congrArg Prod.fst h).symm⟩
        · exact absurd (congrArg Prod.snd h).symm (by simp)

theorem replaceCursor_eq_commit {s : EditState K} {n : Node K} {v : Version}
    {a₂ : Arena K} {r₂ : Nat} (hv : currentVersion s = some v)
    (hrep : replaceAt (s.arena ++ [n]) v.root v.cursor s.arena.length = some (a₂, r₂)) :
    replaceCursor s n = commitState s a₂ { root := r₂, cursor := v.cursor } := by
  unfold replaceCursor
  simp only [hv, hrep]

/-- C5: `replace_cursor(new_node)` always succeeds: from any well-formed
state it commits a new version (the history gains exactly one entry), the new
version carries the same cursor path as before the call, and `cursor()` now
returns `new_node` at that position. -/
theorem replace_cursor_spec (s : EditState K) (n : Node K) (hwf : WFC s) :
    (replaceCursor s n).entries.length = s.entries.length + 1 ∧
      cursorPathOf (replaceCursor s n) = cursorPathOf s ∧
      cursorNodeVal (replaceCursor s n) = some n := by
  obtain ⟨v, cref, hv, hres⟩ := WFC_elim hwf
  have hres₁ : resolveNode (s.arena ++ [n]) v.root v.cursor = some cref :=
    resolveNode_mono _ hres
  obtain ⟨a₂, r₂, hrep⟩ := replaceAt_of_resolve hres₁ s.arena.length
  have hcommit := replaceCursor_eq_commit hv hrep
  have h1 : resolveNode a₂ r₂ v.cursor = some s.arena.length := replaceAt_resolve_self hrep
  obtain ⟨b, hb⟩ := replaceAt_extends hrep
  have h2 : a₂[s.arena.length]? = some n := by
    rw [hb]
    exact getElem?_append_of_some (List.getElem?_concat_length _ _)
  refine ⟨?_, ?_, ?_⟩
  · rw [hcommit, commit_entries_length]
  · rw [hcommit]
    simp [cursorPathOf, currentVersion_commit, hv]
  · rw [hcommit]
    simp [cursorNodeVal, cursorRef, currentVersion_commit, commit_arena, h1, h2]

/-- C5 witness: replacing the root of a concrete one-node tree commits a new
version with the same (empty) cursor path, now selecting the new node. -/
theorem replace_cursor_spec_witness :
    WFC (newEditState ([⟨0, []⟩] : Arena Nat) 0) ∧
      ((replaceCursor (newEditState ([⟨0, []⟩] : Arena Nat) 0) ⟨1, []⟩).entries.length =
          (newEditState ([⟨0, []⟩] : Arena Nat) 0).entries.length + 1 ∧
        cursorPathOf (replaceCursor (newEditState ([⟨0, []⟩] : Arena Nat) 0) ⟨1, []⟩) =
          cursorPathOf (newEditState ([⟨0, []⟩] : Arena Nat) 0) ∧
        cursorNodeVal (replaceCursor (newEditState ([⟨0, []⟩] : Arena Nat) 0) ⟨1, []⟩) =
          some ⟨1, []⟩) :=
  ⟨by decide, replace_cursor_spec (newEditState ([⟨0, []⟩] : Arena Nat) 0) ⟨1, []⟩ (by decide)⟩

theorem insertChild_error_state {valid : K → K → Nat → Bool} {s t : EditState K}
    {n : Node K} {e : InsertError} (h : insertChild valid s n = (t, some e)) : t = s := by
  unfold insertChild at h
  split at h
  · exact (congrArg Prod.fst h).symm
  · split at h
    · exact (congrArg Prod.fst h).symm
    · split at h
      · split at h
        · exact (congrArg Prod.fst h).symm
        · exact absurd (congrArg Prod.snd h) (by simp)
      · exact (congrArg Prod.fst h).symm

theorem insertNextToCursor_error_state {valid : K → K → Nat → Bool} {s t : EditState K}
    {n : Node K} {side : Side} {e : InsertError}
    (h : insertNextToCursor valid s n side = (t, some e)) : t = s := by
  unfold insertNextToCursor at h
  split at h
  · exact (congrArg Prod.fst h).symm
  · split at h
    · exact (congrArg Prod.fst h).symm
    · split at h
      · exact (congrArg Prod.fst h).symm
      · split at h
        · split at h
          · exact (congrArg Prod.fst h).symm
          · exact absurd (congrArg Prod.snd h) (by simp)
        · exact (congrArg Prod.fst h).symm

/-- C2: a rejected insertion (`insert_child` or `insert_next_to_cursor`
returning an insertion error) leaves `root()`, the cursor path and the number
of history entries identical to their values before the call. -/
theorem insertion_rejected_atomic (valid : K → K → Nat → Bool) (s t : EditState K)
    (n : Node K) (side : Side) (e : InsertError) :
    (insertChild valid s n = (t, some e) →
      rootRefOf t = rootRefOf s ∧ cursorPathOf t = cursorPathOf s ∧
        t.entries.length = s.entries.length) ∧
    (insertNextToCursor valid s n side = (t, some e) →
      rootRefOf t = rootRefOf s ∧ cursorPathOf t = cursorPathOf s ∧
        t.entries.length = s.entries.length) := by
  constructor
  · intro h
    obtain rfl := insertChild_error_state h
    exact ⟨rfl, rfl, rfl⟩
  · intro h
    obtain rfl := insertNextToCursor_error_state h
    exact ⟨rfl, rfl, rfl⟩

/-- C2 witness: on a concrete one-node tree, a grammar that rejects every
child makes `insert_child` fail with `invalidKind`, and a sibling insertion
at the root fails with `rootSibling`; both leave the state untouched. -/
theorem insertion_rejected_atomic_witness :
    insertChild (fun _ _ _ => false) (newEditState ([⟨0, []⟩] : Arena Nat) 0) ⟨1, []⟩ =
        (newEditState ([⟨0, []⟩] : Arena Nat) 0, some .invalidKind) ∧
      (rootRefOf (newEditState ([⟨0, []⟩] : Arena Nat) 0) =
          rootRefOf (newEditState ([⟨0, []⟩] : Arena Nat) 0) ∧
        cursorPathOf (newEditState ([⟨0, []⟩] : Arena Nat) 0) =
          cursorPathOf (newEditState ([⟨0, []⟩] : Arena Nat) 0) ∧
        (newEditState ([⟨0, []⟩] : Arena Nat) 0).entries.length =
          (newEditState ([⟨0, []⟩] : Arena Nat) 0).entries.length) ∧
      insertNextToCursor (fun _ _ _ => false) (newEditState ([⟨0, []⟩] : Arena Nat) 0)
          ⟨1, []⟩ .Next =
        (newEditState ([⟨0, []⟩] : Arena Nat) 0, some .rootSibling) ∧
      (rootRefOf (newEditState ([⟨0, []⟩] : Arena Nat) 0) =
          rootRefOf (newEditState ([⟨0, []⟩] : Arena Nat) 0) ∧
        cursorPathOf (newEditState ([⟨0, []⟩] : Arena Nat) 0) =
          cursorPathOf (newEditState ([⟨0, []⟩] : Arena Nat) 0) ∧
        (newEditState ([⟨0, []⟩] : Arena Nat) 0).entries.length =
          (newEditState ([⟨0, []⟩] : Arena Nat) 0).entries.length) :=
  ⟨by decide,
    (insertion_rejected_atomic (fun _ _ _ => false) (newEditState ([⟨0, []⟩] : Arena Nat) 0)
      (newEditState ([⟨0, []⟩] : Arena Nat) 0) ⟨1, []⟩ .Next .invalidKind).1 (by decide),
    by decide,
    (insertion_rejected_atomic (fun _ _ _ => false) (newEditState ([⟨0, []⟩] : Arena Nat) 0)
      (newEditState ([⟨0, []⟩] : Arena Nat) 0) ⟨1, []⟩ .Next .rootSibling).2 (by decide)⟩

theorem getElem?_splice_self (l : List α) (pos : Nat) (a : α) (h : pos ≤ l.length) :
    (l.take pos ++ a :: l.drop pos)[pos]? = some a := by
  have hlen : (l.take pos).length = pos := by
    rw [List.length_take]
    exact Nat.min_eq_left h
  rw [List.getElem?_append_right (by rw [hlen]), hlen, Nat.sub_self]
  simp

theorem eq_dropLast_concat_of_getLast? {l : List α} {a : α} (h : l.getLast? = some a) :
    l = l.dropLast ++ [a] := by
  have hne : l ≠ [] := by
    intro hnil
    rw [hnil] at h
    exact Option.noConfusion h
  have hg : l.getLast? = some (l.getLast hne) := List.getLast?_eq_getLast l hne
  rw [h] at hg
  injection hg with hg
  rw [hg]
  exact (List.dropLast_append_getLast hne).symm

/-- C3: for every successful edit, every node whose access path does not
traverse the rebuilt spine (its path is incomparable with the path the edit
is applied at: the cursor path for `replace_cursor` and `insert_child`, the
cursor's parent path for `insert_next_to_cursor`) resolves in the new version
to the very same node reference as in the previous version: untouched sibling
subtrees are reused by reference, not copied. -/
theorem edit_structural_sharing (valid : K → K → Nat → Bool) (s t : EditState K)
    (v : Version) (n : Node K) (side : Side) (q : List Nat) (x : Nat)
    (hv : currentVersion s = some v) (hq : resolveNode s.arena v.root q = some x) :
    (WFC s → IncompPath q v.cursor → resolveInState (replaceCursor s n) q = some x) ∧
      (insertChild valid s n = (t, none) → IncompPath q v.cursor →
        resolveInState t q = some x) ∧
      (insertNextToCursor valid s n side = (t, none) → IncompPath q v.cursor.dropLast →
        resolveInState t q = some x) := by
  refine ⟨?_, ?_, ?_⟩
  · rintro hwf ⟨hq1, hq2⟩
    obtain ⟨v', cref, hv', hres⟩ := WFC_elim hwf
    rw [hv] at hv'
    injection hv' with hvv
    subst hvv
    have hres₁ : resolveNode (s.arena ++ [n]) v.root v.cursor = some cref :=
      resolveNode_mono _ hres
    obtain ⟨a₂, r₂, hrep⟩ := replaceAt_of_resolve hres₁ s.arena.length
    rw [replaceCursor_eq_commit hv hrep]
    simp only [resolveInState, currentVersion_commit, commit_arena, Option.some_bind]
    exact replaceAt_frame hrep (resolveNode_mono _ hq) hq2 hq1
  · rintro h ⟨hq1, hq2⟩
    obtain ⟨v', cnode, a₃, r₃, hv', hcnode, hvalid, hrep, rfl⟩ := insertChild_success h
    rw [hv] at hv'
    injection hv' with hvv
    subst hvv
    simp only [resolveInState, currentVersion_commit, commit_arena, Option.some_bind]
    exact replaceAt_frame hrep (resolveNode_mono _ (resolveNode_mono _ hq)) hq2 hq1
  · rintro h ⟨hq1, hq2⟩
    obtain ⟨v', idx, pnode, a₃, r₃, hv', hidx, hpnode, hvalid, hrep, rfl⟩ :=
      insertNextToCursor_success h
    rw [hv] at hv'
    injection hv' with hvv
    subst hvv
    simp only [resolveInState, currentVersion_commit, commit_arena, Option.some_bind]
    exact replaceAt_frame hrep (resolveNode_mono _ (resolveNode_mono _ hq)) hq2 hq1

/-- C3 witness: in a concrete tree (root with children A and B, A holding one
leaf, cursor on that leaf), the sibling B at path [1] keeps its reference 2
across a replace at the cursor, an `insert_child` at the cursor and an
`insert_next_to_cursor` under A. -/
theorem edit_structural_sharing_witness :
    (WFC (EditState.mk [⟨10, []⟩, ⟨12, [0]⟩, ⟨11, []⟩, ⟨0, [1, 2]⟩]
        [⟨⟨3, [0, 0]⟩, none, [], none⟩] 0) ∧
      IncompPath [1] (Version.mk 3 [0, 0]).cursor ∧
      resolveInState (replaceCursor (EditState.mk ([⟨10, []⟩, ⟨12, [0]⟩, ⟨11, []⟩,
        ⟨0, [1, 2]⟩] : Arena Nat) [⟨⟨3, [0, 0]⟩, none, [], none⟩] 0) ⟨5, []⟩) [1] =
        some 2) ∧
      (insertChild (fun _ _ _ => true) (EditState.mk ([⟨10, []⟩, ⟨12, [0]⟩, ⟨11, []⟩,
          ⟨0, [1, 2]⟩] : Arena Nat) [⟨⟨3, [0, 0]⟩, none, [], none⟩] 0) ⟨5, []⟩ =
          ((insertChild (fun _ _ _ => true) (EditState.mk ([⟨10, []⟩, ⟨12, [0]⟩, ⟨11, []⟩,
            ⟨0, [1, 2]⟩] : Arena Nat) [⟨⟨3, [0, 0]⟩, none, [], none⟩] 0) ⟨5, []⟩).1,
            none) ∧
        resolveInState (insertChild (fun _ _ _ => true) (EditState.mk ([⟨10, []⟩, ⟨12, [0]⟩,
          ⟨11, []⟩, ⟨0, [1, 2]⟩] : Arena Nat) [⟨⟨3, [0, 0]⟩, none, [], none⟩] 0)
          ⟨5, []⟩).1 [1] = some 2) ∧
      (insertNextToCursor (fun _ _ _ => true) (EditState.mk ([⟨10, []⟩, ⟨12, [0]⟩, ⟨11, []⟩,
          ⟨0, [1, 2]⟩] : Arena Nat) [⟨⟨3, [0, 0]⟩, none, [], none⟩] 0) ⟨5, []⟩ .Next =
          ((insertNextToCursor (fun _ _ _ => true) (EditState.mk ([⟨10, []⟩, ⟨12, [0]⟩,
            ⟨11, []⟩, ⟨0, [1, 2]⟩] : Arena Nat) [⟨⟨3, [0, 0]⟩, none, [], none⟩] 0)
            ⟨5, []⟩ .Next).1, none) ∧
        resolveInState (insertNextToCursor (fun _ _ _ => true) (EditState.mk ([⟨10, []⟩,
          ⟨12, [0]⟩, ⟨11, []⟩, ⟨0, [1, 2]⟩] : Arena Nat)
          [⟨⟨3, [0, 0]⟩, none, [], none⟩] 0) ⟨5, []⟩ .Next).1 [1] = some 2) :=
  ⟨⟨by decide, by decide,
    (edit_structural_sharing (fun _ _ _ => true) (EditState.mk [⟨10, []⟩, ⟨12, [0]⟩,
        ⟨11, []⟩, ⟨0, [1, 2]⟩] [⟨⟨3, [0, 0]⟩, none, [], none⟩] 0)
      (EditState.mk [⟨10, []⟩, ⟨12, [0]⟩, ⟨11, []⟩, ⟨0, [1, 2]⟩]
        [⟨⟨3, [0, 0]⟩, none, [], none⟩] 0) ⟨3, [0, 0]⟩ ⟨5, []⟩ .Next [1] 2
      (by decide) (by decide)).1 (by decide) (by decide)⟩,
    ⟨by decide,
    (edit_structural_sharing (fun _ _ _ => true) (EditState.mk [⟨10, []⟩, ⟨12, [0]⟩,
        ⟨11, []⟩, ⟨0, [1, 2]⟩] [⟨⟨3, [0, 0]⟩, none, [], none⟩] 0)
      ((insertChild (fun _ _ _ => true) (EditState.mk [⟨10, []⟩, ⟨12, [0]⟩, ⟨11, []⟩,
        ⟨0, [1, 2]⟩] [⟨⟨3, [0, 0]⟩, none, [], none⟩] 0) ⟨5, []⟩).1)
      ⟨3, [0, 0]⟩ ⟨5, []⟩ .Next [1] 2 (by decide) (by decide)).2.1 (by decide)
      (by decide)⟩,
    ⟨by decide,
    (edit_structural_sharing (fun _ _ _ => true) (EditState.mk [⟨10, []⟩, ⟨12, [0]⟩,
        ⟨11, []⟩, ⟨0, [1, 2]⟩] [⟨⟨3, [0, 0]⟩, none, [], none⟩] 0)
      ((insertNextToCursor (fun _ _ _ => true) (EditState.mk [⟨10, []⟩, ⟨12, [0]⟩,
        ⟨11, []⟩, ⟨0, [1, 2]⟩] [⟨⟨3, [0, 0]⟩, none, [], none⟩] 0) ⟨5, []⟩ .Next).1)
      ⟨3, [0, 0]⟩ ⟨5, []⟩ .Next [1] 2 (by decide) (by decide)).2.2 (by decide)
      (by decide)⟩⟩

/-- C4: `insert_next_to_cursor(new_node, side)` fails with the root-sibling
insertion error when the cursor path is empty; on success from a well-formed
state with cursor index `idx` it splices `new_node` into the parent's child
sequence at position `idx` (`Prev`) or `idx + 1` (`Next`), and the new cursor
path ends in that position, so `cursor()` returns the newly inserted node. -/
theorem insert_next_to_cursor_spec (valid : K → K → Nat → Bool) (s t : EditState K)
    (n : Node K) (side : Side) (v : Version) (idx : Nat) :
    (currentVersion s = some v → v.cursor = [] →
      insertNextToCursor valid s n side = (s, some .rootSibling)) ∧
      (WFC s → currentVersion s = some v → v.cursor.getLast? = some idx →
        insertNextToCursor valid s n side = (t, none) →
        cursorPathOf t = some (v.cursor.dropLast ++ [sidePos side idx]) ∧
          cursorNodeVal t = some n ∧
          ((resolveInState t v.cursor.dropLast).bind fun r => t.arena[r]?) =
            (((resolveInState s v.cursor.dropLast).bind fun r => s.arena[r]?).map
              fun pn => Node.mk pn.kind (pn.children.take (sidePos side idx) ++
                s.arena.length :: pn.children.drop (sidePos side idx)))) := by
  constructor
  · intro hv hemp
    simp [insertNextToCursor, hv, hemp]
  · intro hwf hv hlast hsucc
    obtain ⟨v', idx', pnode, a₃, r₃, hv', hidx', hpnode, hvalid, hrep, rfl⟩ :=
      insertNextToCursor_success hsucc
    rw [hv] at hv'
    injection hv' with hvv
    subst hvv
    rw [hlast] at hidx'
    injection hidx' with hii
    subst hii
    obtain ⟨v₂, cref, hv₂, hres⟩ := WFC_elim hwf
    rw [hv] at hv₂
    injection hv₂ with hv₂e
    subst hv₂e
    have hsplit : v.cursor = v.cursor.dropLast ++ [idx] :=
      eq_dropLast_concat_of_getLast? hlast
    rw [hsplit, resolveNode_append, Option.bind_eq_some] at hres
    obtain ⟨m, hm, hres1⟩ := hres
    simp only [resolveNode, Option.bind_eq_some] at hres1
    obtain ⟨nd, hnd, c, hc, -⟩ := hres1
    rw [Option.bind_eq_some] at hpnode
    obtain ⟨m', hm', hnd'⟩ := hpnode
    rw [hm] at hm'
    injection hm' with hmm
    subst hmm
    rw [hnd] at hnd'
    injection hnd' with hnn
    subst hnn
    have hidxlt : idx < nd.children.length := (List.getElem?_eq_some.mp hc).1
    have hposle : sidePos side idx ≤ nd.children.length := by
      cases side <;> simp only [sidePos] <;> omega
    have hpp : resolveNode a₃ r₃ v.cursor.dropLast = some (s.arena ++ [n]).length :=
      replaceAt_resolve_self hrep
    obtain ⟨b, hb⟩ := replaceAt_extends hrep
    have hparent : a₃[(s.arena ++ [n]).length]? = some (Node.mk nd.kind
        (nd.children.take (sidePos side idx) ++
          s.arena.length :: nd.children.drop (sidePos side idx))) := by
      rw [hb]
      exact getElem?_append_of_some (List.getElem?_concat_length _ _)
    have hnew : a₃[s.arena.length]? = some n := by
      rw [hb]
      exact getElem?_append_of_some
        (getElem?_append_of_some (List.getElem?_concat_length _ _))
    have hcref : resolveNode a₃ r₃ (v.cursor.dropLast ++ [sidePos side idx]) =
        some s.arena.length := by
      rw [resolveNode_append, hpp, Option.some_bind]
      simp only [resolveNode, hparent, Option.some_bind]
      rw [getElem?_splice_self _ _ _ hposle]
      rfl
    refine ⟨?_, ?_, ?_⟩
    · simp [cursorPathOf, currentVersion_commit]
    · simp only [cursorNodeVal, cursorRef, currentVersion_commit, commit_arena,
        Option.some_bind]
      rw [hcref, Option.some_bind]
      exact hnew
    · simp only [resolveInState, currentVersion_commit, commit_arena, hv,
        Option.some_bind]
      rw [hpp, Option.some_bind, hparent, hm, Option.some_bind, hnd]
      rfl

/-- C4 witness: on a concrete tree, a sibling insertion at the root fails
with the root-sibling error, and a successful `Next` insertion under a parent
with one child puts the cursor path's last element at 1 and selects the new
node. -/
theorem insert_next_to_cursor_spec_witness :
    (currentVersion (newEditState ([⟨0, []⟩] : Arena Nat) 0) = some ⟨0, []⟩ ∧
      insertNextToCursor (fun _ _ _ => true) (newEditState ([⟨0, []⟩] : Arena Nat) 0)
        ⟨1, []⟩ .Next = (newEditState ([⟨0, []⟩] : Arena Nat) 0, some .rootSibling)) ∧
      (cursorPathOf (insertNextToCursor (fun _ _ _ => true) (EditState.mk ([⟨10, []⟩,
          ⟨12, [0]⟩, ⟨11, []⟩, ⟨0, [1, 2]⟩] : Arena Nat)
          [⟨⟨3, [0, 0]⟩, none, [], none⟩] 0) ⟨5, []⟩ .Next).1 =
          some ((Version.mk 3 [0, 0]).cursor.dropLast ++ [sidePos .Next 0]) ∧
        cursorNodeVal (insertNextToCursor (fun _ _ _ => true) (EditState.mk ([⟨10, []⟩,
          ⟨12, [0]⟩, ⟨11, []⟩, ⟨0, [1, 2]⟩] : Arena Nat)
          [⟨⟨3, [0, 0]⟩, none, [], none⟩] 0) ⟨5, []⟩ .Next).1 = some ⟨5, []⟩) :=
  ⟨⟨by decide,
    (insert_next_to_cursor_spec (fun _ _ _ => true) (newEditState [⟨0, []⟩] 0)
      (newEditState [⟨0, []⟩] 0) ⟨1, []⟩ .Next ⟨0, []⟩ 0).1 (by decide) rfl⟩,
    ⟨((insert_next_to_cursor_spec (fun _ _ _ => true) (EditState.mk [⟨10, []⟩, ⟨12, [0]⟩,
        ⟨11, []⟩, ⟨0, [1, 2]⟩] [⟨⟨3, [0, 0]⟩, none, [], none⟩] 0)
      ((insertNextToCursor (fun _ _ _ => true) (EditState.mk [⟨10, []⟩, ⟨12, [0]⟩,
        ⟨11, []⟩, ⟨0, [1, 2]⟩] [⟨⟨3, [0, 0]⟩, none, [], none⟩] 0) ⟨5, []⟩ .Next).1)
      ⟨5, []⟩ .Next ⟨3, [0, 0]⟩ 0).2 (by decide) (by decide) (by decide)
      (by decide)).1,
    ((insert_next_to_cursor_spec (fun _ _ _ => true) (EditState.mk [⟨10, []⟩, ⟨12, [0]⟩,
        ⟨11, []⟩, ⟨0, [1, 2]⟩] [⟨⟨3, [0, 0]⟩, none, [], none⟩] 0)
      ((insertNextToCursor (fun _ _ _ => true) (EditState.mk [⟨10, []⟩, ⟨12, [0]⟩,
        ⟨11, []⟩, ⟨0, [1, 2]⟩] [⟨⟨3, [0, 0]⟩, none, [], none⟩] 0) ⟨5, []⟩ .Next).1)
      ⟨5, []⟩ .Next ⟨3, [0, 0]⟩ 0).2 (by decide) (by decide) (by decide)
      (by decide)).2.1⟩⟩

/-- C6: after a successful `insert_child(new_node)` (which prepends
`new_node` as first child and extends the cursor path with index 0), moving
`Up` and then `Down` both succeed and return the cursor to the freshly
inserted child: the cursor path is back to its value right after the insert
and `cursor()` returns `new_node` again. -/
theorem insert_child_up_down (valid : K → K → Nat → Bool) (s t : EditState K)
    (n : Node K) (h : insertChild valid s n = (t, none)) :
    (moveCursor t .Up).2 = none ∧
      (moveCursor (moveCursor t .Up).1 .Down).2 = none ∧
      cursorPathOf (moveCursor (moveCursor t .Up).1 .Down).1 = cursorPathOf t ∧
      cursorNodeVal (moveCursor (moveCursor t .Up).1 .Down).1 = some n := by
  obtain ⟨v, cnode, a₃, r₃, hv, hcnode, hvalid, hrep, rfl⟩ := insertChild_success h
  have hcv : currentVersion (commitState s a₃ { root := r₃, cursor := v.cursor ++ [0] }) =
      some { root := r₃, cursor := v.cursor ++ [0] } := currentVersion_commit _ _ _
  have hup : moveCursor (commitState s a₃ { root := r₃, cursor := v.cursor ++ [0] }) .Up =
      (setCursor (commitState s a₃ { root := r₃, cursor := v.cursor ++ [0] }) v.cursor,
        none) := by
    simp [moveCursor, hcv, List.getLast?_concat, List.dropLast_concat]
  obtain ⟨b, hb⟩ := replaceAt_extends hrep
  have hmid : a₃[(s.arena ++ [n]).length]? =
      some (Node.mk cnode.kind (s.arena.length :: cnode.children)) := by
    rw [hb]
    exact getElem?_append_of_some (List.getElem?_concat_length _ _)
  have hnew : a₃[s.arena.length]? = some n := by
    rw [hb]
    exact getElem?_append_of_some
      (getElem?_append_of_some (List.getElem?_concat_length _ _))
  have hres : resolveNode a₃ r₃ v.cursor = some (s.arena ++ [n]).length :=
    replaceAt_resolve_self hrep
  have hcv₁ : currentVersion (setCursor
      (commitState s a₃ { root := r₃, cursor := v.cursor ++ [0] }) v.cursor) =
      some { root := r₃, cursor := v.cursor } := by
    rw [currentVersion_setCursor, hcv]
    rfl
  have hdown : moveCursor (setCursor
      (commitState s a₃ { root := r₃, cursor := v.cursor ++ [0] }) v.cursor) .Down =
      (setCursor (setCursor (commitState s a₃ { root := r₃, cursor := v.cursor ++ [0] })
        v.cursor) (v.cursor ++ [0]), none) := by
    simp only [moveCursor, hcv₁]
    have harena : (setCursor
        (commitState s a₃ { root := r₃, cursor := v.cursor ++ [0] }) v.cursor).arena =
        a₃ := rfl
    rw [harena, hres, Option.some_bind, hmid]
    simp
  have hcv₂ : currentVersion (setCursor (setCursor
      (commitState s a₃ { root := r₃, cursor := v.cursor ++ [0] }) v.cursor)
      (v.cursor ++ [0])) = some { root := r₃, cursor := v.cursor ++ [0] } := by
    rw [currentVersion_setCursor, hcv₁]
    rfl
  have hcref₂ : resolveNode a₃ r₃ (v.cursor ++ [0]) = some s.arena.length := by
    rw [resolveNode_append, hres, Option.some_bind]
    simp only [resolveNode, hmid, Option.some_bind, List.getElem?_cons_zero]
  refine ⟨by rw [hup], ?_, ?_, ?_⟩
  · rw [hup, hdown]
  · rw [hup, hdown]
    simp [cursorPathOf, hcv₂, hcv]
  · rw [hup, hdown]
    simp only [cursorNodeVal, cursorRef, hcv₂, Option.some_bind]
    rw [show (setCursor (setCursor
        (commitState s a₃ { root := r₃, cursor := v.cursor ++ [0] }) v.cursor)
        (v.cursor ++ [0])).arena = a₃ from rfl, hcref₂, Option.some_bind]
    exact hnew

/-- C6 witness: on a concrete tree with the cursor on a leaf, inserting a
child with a permissive grammar, then moving `Up` and `Down`, selects the
inserted node again. -/
theorem insert_child_up_down_witness :
    insertChild (fun _ _ _ => true) (EditState.mk ([⟨10, []⟩, ⟨12, [0]⟩, ⟨11, []⟩,
        ⟨0, [1, 2]⟩] : Arena Nat) [⟨⟨3, [0, 0]⟩, none, [], none⟩] 0) ⟨5, []⟩ =
      ((insertChild (fun _ _ _ => true) (EditState.mk ([⟨10, []⟩, ⟨12, [0]⟩, ⟨11, []⟩,
        ⟨0, [1, 2]⟩] : Arena Nat) [⟨⟨3, [0, 0]⟩, none, [], none⟩] 0) ⟨5, []⟩).1,
        none) ∧
      ((moveCursor (insertChild (fun _ _ _ => true) (EditState.mk ([⟨10, []⟩, ⟨12, [0]⟩,
          ⟨11, []⟩, ⟨0, [1, 2]⟩] : Arena Nat) [⟨⟨3, [0, 0]⟩, none, [], none⟩] 0)
          ⟨5, []⟩).1 .Up).2 = none ∧
        (moveCursor (moveCursor (insertChild (fun _ _ _ => true) (EditState.mk ([⟨10, []⟩,
          ⟨12, [0]⟩, ⟨11, []⟩, ⟨0, [1, 2]⟩] : Arena Nat)
          [⟨⟨3, [0, 0]⟩, none, [], none⟩] 0) ⟨5, []⟩).1 .Up).1 .Down).2 = none ∧
        cursorPathOf (moveCursor (moveCursor (insertChild (fun _ _ _ => true)
          (EditState.mk ([⟨10, []⟩, ⟨12, [0]⟩, ⟨11, []⟩, ⟨0, [1, 2]⟩] : Arena Nat)
          [⟨⟨3, [0, 0]⟩, none, [], none⟩] 0) ⟨5, []⟩).1 .Up).1 .Down).1 =
          cursorPathOf (insertChild (fun _ _ _ => true) (EditState.mk ([⟨10, []⟩,
          ⟨12, [0]⟩, ⟨11, []⟩, ⟨0, [1, 2]⟩] : Arena Nat)
          [⟨⟨3, [0, 0]⟩, none, [], none⟩] 0) ⟨5, []⟩).1 ∧
        cursorNodeVal (moveCursor (moveCursor (insertChild (fun _ _ _ => true)
          (EditState.mk ([⟨10, []⟩, ⟨12, [0]⟩, ⟨11, []⟩, ⟨0, [1, 2]⟩] : Arena Nat)
          [⟨⟨3, [0, 0]⟩, none, [], none⟩] 0) ⟨5, []⟩).1 .Up).1 .Down).1 =
          some ⟨5, []⟩) :=
  ⟨by decide,
    insert_child_up_down (fun _ _ _ => true) (EditState.mk [⟨10, []⟩, ⟨12, [0]⟩, ⟨11, []⟩,
        ⟨0, [1, 2]⟩] [⟨⟨3, [0, 0]⟩, none, [], none⟩] 0)
      ((insertChild (fun _ _ _ => true) (EditState.mk [⟨10, []⟩, ⟨12, [0]⟩, ⟨11, []⟩,
        ⟨0, [1, 2]⟩] [⟨⟨3, [0, 0]⟩, none, [], none⟩] 0) ⟨5, []⟩).1) ⟨5, []⟩
      (by decide)⟩

theorem undoStep_eq (s : EditState K) {e : HistoryEntry} {p : Nat}
    (he : s.entries[s.current]? = some e) (hp : e.parent = some p) :
    undoStep s = ({ s with current := p }, true) := by
  simp only [undoStep, he, hp]

theorem redoStep_eq (s : EditState K) {e : HistoryEntry} {c : Nat}
    (he : s.entries[s.current]? = some e) (hc : e.lastRedo = some c) :
    redoStep s = ({ s with current := c }, true) := by
  simp only [redoStep, he, hc]

theorem insertNext_pos_le {s : EditState K} {v : Version} {idx : Nat} {pnode : Node K}
    (hwf : WFC s) (hv : currentVersion s = some v) (hlast : v.cursor.getLast? = some idx)
    (hpnode : ((resolveNode s.arena v.root v.cursor.dropLast).bind fun r => s.arena[r]?) =
      some pnode) (side : Side) : sidePos side idx ≤ pnode.children.length := by
  obtain ⟨v₂, cref, hv₂, hres⟩ := WFC_elim hwf
  rw [hv] at hv₂
  injection hv₂ with he
  subst he
  rw [eq_dropLast_concat_of_getLast? hlast, resolveNode_append, Option.bind_eq_some]
    at hres
  obtain ⟨m, hm, hres1⟩ := hres
  simp only [resolveNode, Option.bind_eq_some] at hres1
  obtain ⟨nd, hnd, c, hc, -⟩ := hres1
  rw [Option.bind_eq_some] at hpnode
  obtain ⟨m', hm', hnd'⟩ := hpnode
  rw [hm] at hm'
  injection hm' with hmm
  subst hmm
  rw [hnd] at hnd'
  injection hnd' with hnn
  subst hnn
  have hidxlt : idx < nd.children.length := (List.getElem?_eq_some.mp hc).1
  cases side <;> simp only [sidePos] <;> omega

theorem applyEdit_success_commit {valid : K → K → Nat → Bool} {s t : EditState K}
    {op : EditOp K} (hwf : WFC s) (h : applyEdit valid s op = (t, none)) :
    (∃ a v, t = commitState s a v) ∧ WFC t := by
  cases op with
  | replace n =>
    have h' : (replaceCursor s n, (none : Option InsertError)) = (t, none) := h
    injection h' with h1 h2
    subst h1
    obtain ⟨v, cref, hv, hres⟩ := WFC_elim hwf
    have hres₁ : resolveNode (s.arena ++ [n]) v.root v.cursor = some cref :=
      resolveNode_mono _ hres
    obtain ⟨a₂, r₂, hrep⟩ := replaceAt_of_resolve hres₁ s.arena.length
    have hc := replaceCursor_eq_commit hv hrep
    constructor
    · exact ⟨a₂, _, hc⟩
    · rw [hc]
      simp only [WFC, cursorRef, currentVersion_commit, commit_arena, Option.some_bind]
      rw [replaceAt_resolve_self hrep]
      rfl
  | child n =>
    have hsucc : insertChild valid s n = (t, none) := h
    obtain ⟨v, cnode, a₃, r₃, hv, hcnode, hvalid, hrep, rfl⟩ := insertChild_success hsucc
    refine ⟨⟨a₃, _, rfl⟩, ?_⟩
    obtain ⟨b, hb⟩ := replaceAt_extends hrep
    have hmid : a₃[(s.arena ++ [n]).length]? =
        some (Node.mk cnode.kind (s.arena.length :: cnode.children)) := by
      rw [hb]
      exact getElem?_append_of_some (List.getElem?_concat_length _ _)
    have hres := replaceAt_resolve_self hrep
    have hcref : resolveNode a₃ r₃ (v.cursor ++ [0]) = some s.arena.length := by
      rw [resolveNode_append, hres, Option.some_bind]
      simp only [resolveNode, hmid, Option.some_bind, List.getElem?_cons_zero]
    simp only [WFC, cursorRef, currentVersion_commit, commit_arena, Option.some_bind]
    rw [hcref]
    rfl
  | nextTo n side =>
    have hsucc : insertNextToCursor valid s n side = (t, none) := h
    obtain ⟨v, idx, pnode, a₃, r₃, hv, hidx, hpnode, hvalid, hrep, rfl⟩ :=
      insertNextToCursor_success hsucc
    refine ⟨⟨a₃, _, rfl⟩, ?_⟩
    have hposle := insertNext_pos_le hwf hv hidx hpnode side
    have hpp := replaceAt_resolve_self hrep
    obtain ⟨b, hb⟩ := replaceAt_extends hrep
    have hparent : a₃[(s.arena ++ [n]).length]? = some (Node.mk pnode.kind
        (pnode.children.take (sidePos side idx) ++
          s.arena.length :: pnode.children.drop (sidePos side idx))) := by
      rw [hb]
      exact getElem?_append_of_some (List.getElem?_concat_length _ _)
    have hcref : resolveNode a₃ r₃ (v.cursor.dropLast ++ [sidePos side idx]) =
        some s.arena.length := by
      rw [resolveNode_append, hpp, Option.some_bind]
      simp only [resolveNode, hparent, Option.some_bind]
      rw [getElem?_splice_self _ _ _ hposle]
      rfl
    simp only [WFC, cursorRef, currentVersion_commit, commit_arena, Option.some_bind]
    rw [hcref]
    rfl

theorem applyEditsOk_cons {valid : K → K → Nat → Bool} {s t : EditState K}
    {op : EditOp K} {rest : List (EditOp K)}
    (h : applyEditsOk valid s (op :: rest) = some t) :
    ∃ t₁, applyEdit valid s op = (t₁, none) ∧ applyEditsOk valid t₁ rest = some t := by
  unfold applyEditsOk at h
  split at h
  · rename_i t₁ heq
    exact ⟨t₁, heq, h⟩
  · exact Option.noConfusion h

theorem applyEditsOk_preserves_entries {valid : K → K → Nat → Bool} :
    ∀ (ops : List (EditOp K)) (s t : EditState K), WFC s →
      applyEditsOk valid s ops = some t →
      ∀ i, i < s.entries.length → i ≠ s.current → t.entries[i]? = s.entries[i]? := by
  intro ops
  induction ops with
  | nil =>
    intro s t _ h i _ _
    injection h with h
    subst h
    rfl
  | cons op rest ih =>
    intro s t hwf h i hi hne
    obtain ⟨t₁, hstep, hrest⟩ := applyEditsOk_cons h
    obtain ⟨⟨a, v, rfl⟩, hwf₁⟩ := applyEdit_success_commit hwf hstep
    have hlen : i < (commitState s a v).entries.length := by
      rw [commit_entries_length]
      omega
    have hne₁ : i ≠ (commitState s a v).current := by
      rw [commit_current]
      omega
    rw [ih (commitState s a v) t hwf₁ hrest i hlen hne₁]
    exact commit_entry_old s a v i hi hne

theorem applyEditsOk_preserves_parent {valid : K → K → Nat → Bool} :
    ∀ (ops : List (EditOp K)) (s t : EditState K), WFC s →
      applyEditsOk valid s ops = some t →
      ∀ i, i < s.entries.length →
        (t.entries[i]?).map HistoryEntry.parent =
          (s.entries[i]?).map HistoryEntry.parent := by
  intro ops
  induction ops with
  | nil =>
    intro s t _ h i _
    injection h with h
    subst h
    rfl
  | cons op rest ih =>
    intro s t hwf h i hi
    obtain ⟨t₁, hstep, hrest⟩ := applyEditsOk_cons h
    obtain ⟨⟨a, v, rfl⟩, hwf₁⟩ := applyEdit_success_commit hwf hstep
    have hlen : i < (commitState s a v).entries.length := by
      rw [commit_entries_length]
      omega
    rw [ih (commitState s a v) t hwf₁ hrest i hlen]
    by_cases hc : i = s.current
    · subst hc
      rw [commit_entry_current s a v hi, Option.map_map]
      rfl
    · rw [commit_entry_old s a v i hi hc]

theorem undo_redo_chain {valid : K → K → Nat → Bool} :
    ∀ (ops : List (EditOp K)) (s t : EditState K), WFC s →
      applyEditsOk valid s ops = some t →
      undoN t ops.length = { t with current := s.current } ∧
        redoN { t with current := s.current } ops.length = t := by
  intro ops
  induction ops with
  | nil =>
    intro s t _ h
    injection h with h
    subst h
    exact ⟨rfl, rfl⟩
  | cons op rest ih =>
    intro s t hwf h
    obtain ⟨t₁, hstep, hrest⟩ := applyEditsOk_cons h
    obtain ⟨⟨a, v, rfl⟩, hwf₁⟩ := applyEdit_success_commit hwf hstep
    obtain ⟨ihu, ihr⟩ := ih (commitState s a v) t hwf₁ hrest
    have hcur_lt : s.current < s.entries.length := WFC_current_lt hwf
    have hpar : (t.entries[s.entries.length]?).map HistoryEntry.parent =
        some (some s.current) := by
      rw [applyEditsOk_preserves_parent rest (commitState s a v) t hwf₁ hrest
        s.entries.length (by rw [commit_entries_length]; omega), commit_entry_new]
      rfl
    obtain ⟨e, he, hep⟩ := Option.map_eq_some'.mp hpar
    have hcurent : t.entries[s.current]? =
        (s.entries[s.current]?).map fun e =>
          { e with
            children := e.children ++ [s.entries.length]
            lastRedo := some s.entries.length } := by
      rw [applyEditsOk_preserves_entries rest (commitState s a v) t hwf₁ hrest
        s.current (by rw [commit_entries_length]; omega) (by rw [commit_current]; omega),
        commit_entry_current s a v hcur_lt]
    obtain ⟨e₀, he₀⟩ : ∃ e₀, s.entries[s.current]? = some e₀ :=
      ⟨_, List.getElem?_eq_getElem hcur_lt⟩
    constructor
    · show (undoStep (undoN t rest.length)).1 = _
      rw [ihu]
      exact congrArg Prod.fst (undoStep_eq _ he hep)
    · show redoN (redoStep { t with current := s.current }).1 rest.length = t
      have he' : t.entries[s.current]? = some
          { e₀ with
            children := e₀.children ++ [s.entries.length]
            lastRedo := some s.entries.length } := by
        rw [hcurent, he₀]
        rfl
      rw [congrArg Prod.fst (redoStep_eq { t with current := s.current } he' rfl)]
      exact ihr

/-- C1: from any well-formed state, after a sequence of `N` successful edits
(`replace_cursor`, `insert_child` or `insert_next_to_cursor`), calling
`undo()` `N` times and then `redo()` `N` times yields a state whose root
reference and cursor path equal those held immediately after the `N`-th
edit. -/
theorem undo_redo_inverse (valid : K → K → Nat → Bool) (s t : EditState K)
    (ops : List (EditOp K)) (hwf : WFC s) (h : applyEditsOk valid s ops = some t) :
    rootRefOf (redoN (undoN t ops.length) ops.length) = rootRefOf t ∧
      cursorPathOf (redoN (undoN t ops.length) ops.length) = cursorPathOf t := by
  obtain ⟨hu, hr⟩ := undo_redo_chain ops s t hwf h
  rw [hu, hr]
  exact ⟨rfl, rfl⟩

/-- C1 witness: from a concrete one-node tree, two successful edits (an
`insert_child` and a `replace_cursor`), two undos and two redos restore the
root reference and the cursor path of the second edit's state. -/
theorem undo_redo_inverse_witness :
    WFC (newEditState ([⟨0, []⟩] : Arena Nat) 0) ∧
      applyEditsOk (fun _ _ _ => true) (newEditState ([⟨0, []⟩] : Arena Nat) 0)
        [.child ⟨1, []⟩, .replace ⟨2, []⟩] =
        some ((applyEditsOk (fun _ _ _ => true) (newEditState ([⟨0, []⟩] : Arena Nat) 0)
          [.child ⟨1, []⟩, .replace ⟨2, []⟩]).getD (newEditState [⟨0, []⟩] 0)) ∧
      (rootRefOf (redoN (undoN ((applyEditsOk (fun _ _ _ => true)
            (newEditState ([⟨0, []⟩] : Arena Nat) 0)
            [.child ⟨1, []⟩, .replace ⟨2, []⟩]).getD (newEditState [⟨0, []⟩] 0)) 2) 2) =
          rootRefOf ((applyEditsOk (fun _ _ _ => true)
            (newEditState ([⟨0, []⟩] : Arena Nat) 0)
            [.child ⟨1, []⟩, .replace ⟨2, []⟩]).getD (newEditState [⟨0, []⟩] 0)) ∧
        cursorPathOf (redoN (undoN ((applyEditsOk (fun _ _ _ => true)
            (newEditState ([⟨0, []⟩] : Arena Nat) 0)
            [.child ⟨1, []⟩, .replace ⟨2, []⟩]).getD (newEditState [⟨0, []⟩] 0)) 2) 2) =
          cursorPathOf ((applyEditsOk (fun _ _ _ => true)
            (newEditState ([⟨0, []⟩] : Arena Nat) 0)
            [.child ⟨1, []⟩, .replace ⟨2, []⟩]).getD (newEditState [⟨0, []⟩] 0))) :=
  ⟨by decide, by decide,
    undo_redo_inverse (fun _ _ _ => true) (newEditState [⟨0, []⟩] 0)
      ((applyEditsOk (fun _ _ _ => true) (newEditState ([⟨0, []⟩] : Arena Nat) 0)
        [.child ⟨1, []⟩, .replace ⟨2, []⟩]).getD (newEditState [⟨0, []⟩] 0))
      [.child ⟨1, []⟩, .replace ⟨2, []⟩] (by decide) (by decide)⟩

end Sapling
